import Mathlib

/-!
Verification of the session resolution and incremental tailing engine of
claude-ps.

The definitions below are a shallow embedding of the TypeScript source:

* `src/utils/session.ts` (the current module, holding `getSessionPath`,
  `getRecentMessages`, `getNewMessages`, `getAllMessages`,
  `extractUserText`, `extractAssistantText`, `isMetaMessage`, `truncate`,
  `findBestMatchingProjectDir`, `generateProjectDirVariants`,
  `debugSessionMatching`), embedded in namespace `CPS`;
* the older selector variant of `src/utils/session.ts` that filters by a
  1024-byte size threshold, embedded as `CPS.getSessionPathOld`;
* `src/utils/cache.ts` (`FileCache.get` and its `cleanup`), embedded as
  `CPS.cacheGet` over an explicit cache state and filesystem model;
* the per-path debounce logic of `src/hooks/useSessionWatcher.ts`,
  embedded as `CPS.runDebounce`.

Modelling conventions:

* Filesystem effects (`readdir`, `stat`, `readFile`) are explicit inputs:
  a directory listing is an `Option (List FileStat)` (`none` = readdir
  threw), a file system is a pair of partial functions for stat and load.
* Times are integer milliseconds (`Int`), as in the JS `getTime()` world.
* `JSON.parse` is an external platform primitive; it is modelled as an
  abstract `decode : String → Option JsonEntry` parameter producing the
  record shape the parser reads (`type`, `message.content`, `timestamp`);
  `none` models a parse exception (the line is skipped).
* JS string operations (`split`, `trim`, `replace(/\s+/g, " ")`, `slice`,
  `endsWith`, `includes`) are implemented over `List Char`, with a JS
  string's UTF-16 length abstracted as the character-list length and
  JS whitespace abstracted as `Char.isWhitespace`.
* `Array.prototype.sort` is stable; for the total preorder comparators
  used by the source (`(a, b) => b.mtimeMs - a.mtimeMs` and friends) it
  coincides extensionally with stable insertion sort, so sorts are
  embedded as `List.insertionSort r` with `r a b := (comparator a b ≤ 0)`.
-/

namespace CPS

/-! ## JS string primitives -/

/-- Split a character list at a separator character, mirroring the JS
`String.prototype.split` semantics for a one-character separator
(`"".split(sep) = [""]`, separators at the ends produce empty pieces). -/
def splitOnChar (sep : Char) : List Char → List (List Char)
  | [] => [[]]
  | c :: cs =>
    match splitOnChar sep cs with
    | [] => [[c]]
    | h :: t => if c = sep then [] :: h :: t else (c :: h) :: t

/-- Split a string into its newline-separated lines, as JS `split("\n")`. -/
def jsSplitNl (s : String) : List String :=
  (splitOnChar '\n' s.data).map fun l => ⟨l⟩

/-- Split a string at a given separator character, as JS `split(sep)`. -/
def jsSplit (sep : Char) (s : String) : List String :=
  (splitOnChar sep s.data).map fun l => ⟨l⟩

/-- Trim whitespace from both ends of a character list (JS `trim()`). -/
def trimChars (l : List Char) : List Char :=
  ((l.dropWhile Char.isWhitespace).reverse.dropWhile Char.isWhitespace).reverse

/-- JS `String.prototype.trim`. -/
def jsTrim (s : String) : String := ⟨trimChars s.data⟩

/-- Collapse maximal runs of a repeated character into one occurrence. -/
def squeezeRuns (sep : Char) : List Char → List Char
  | [] => []
  | [c] => [c]
  | a :: b :: rest =>
    if a = sep ∧ b = sep then squeezeRuns sep (b :: rest)
    else a :: squeezeRuns sep (b :: rest)

/-- JS `text.replace(/\s+/g, " ")`: each maximal whitespace run becomes a
single space. Embedded as mapping whitespace to a space and collapsing
runs of spaces. -/
def jsCollapseWs (s : String) : String :=
  ⟨squeezeRuns ' ' (s.data.map fun c => if c.isWhitespace then ' ' else c)⟩

/-- JS `small.isSuffixOf big`-style `String.prototype.endsWith`. -/
def endsWithS (s suffix : String) : Bool :=
  suffix.data.isSuffixOf s.data

/-- JS `String.prototype.startsWith`. -/
def startsWithS (s pre : String) : Bool :=
  pre.data.isPrefixOf s.data

/-- Check whether `small` occurs contiguously inside `big`
(JS `big.includes(small)`). -/
def includesChars (small : List Char) : List Char → Bool
  | [] => small.isPrefixOf []
  | b :: bs => small.isPrefixOf (b :: bs) || includesChars small bs

/-- JS `big.includes(small)` on strings. -/
def strIncludes (big small : String) : Bool :=
  includesChars small.data big.data

/-- JS `Array.prototype.join("\n")`. -/
def joinNl : List String → String
  | [] => ""
  | [s] => s
  | s :: rest => s ++ "\n" ++ joinNl rest

/-! ## Entry parser (src/utils/session.ts) -/

/-- One element of an assistant `message.content` array: the parser reads
its `type` tag and `text` field (absent/empty text modelled as `""`). -/
structure ContentItem where
  type : String
  text : String
deriving DecidableEq, Repr

/-- The shape of `entry.message.content` as read by the parser: a plain
string (user messages) or an array of content items (assistant
messages). -/
inductive MsgContent where
  | str (s : String)
  | arr (items : List ContentItem)
deriving DecidableEq, Repr

/-- The fields of one parsed JSONL record that the parser inspects:
`entry.type`, `entry.message?.content` (`none` when `message` or
`content` is absent) and `entry.timestamp`. -/
structure JsonEntry where
  type : String
  content : Option MsgContent
  timestamp : Option String
deriving DecidableEq, Repr

/-- JS truthiness of `entry.message?.content`: absent and the empty
string are falsy; any array is truthy. -/
def contentTruthy : Option MsgContent → Bool
  | none => false
  | some (.str s) => !(s == "")
  | some (.arr _) => true

/-- `extractUserText`: a plain string is returned as is, any other shape
(arrays such as tool results) yields the empty string. -/
def extractUserText : Option MsgContent → String
  | some (.str s) => s
  | _ => ""

/-- `extractAssistantText`: non-arrays yield `""`; from an array, keep the
items whose `type` is `"text"` with truthy `text`, and join their texts
with newlines. -/
def extractAssistantText : Option MsgContent → String
  | some (.arr items) =>
      joinNl ((items.filter fun i => i.type == "text" && !(i.text == "")).map fun i => i.text)
  | _ => ""

/-- `isMetaMessage`: text starting with one of the meta/command markers. -/
def isMetaMessage (text : String) : Bool :=
  startsWithS text "<local-command" ||
  startsWithS text "<command-name>" ||
  startsWithS text "<command-message>"

/-- `truncate(text, maxLen)`: collapse whitespace and trim; if the result
fits in `maxLen` return it, otherwise keep `maxLen - 3` characters and
append an ellipsis. (`slice(0, maxLen - 3)` is embedded as `take`; all
call sites in the source use `maxLen = 100`.) -/
def truncate (text : String) (maxLen : Nat) : String :=
  let clean := jsTrim (jsCollapseWs text)
  if clean.length ≤ maxLen then clean
  else (⟨clean.data.take (maxLen - 3)⟩ : String) ++ "..."

/-- A parsed conversational entry (`SessionMessage` in src/types). -/
structure SessionMessage where
  role : String
  content : String
  timestamp : String
deriving DecidableEq, Repr

/-- The per-line body of the parsing loop shared by `getRecentMessages`,
`getNewMessages` and `getAllMessages`: decode the JSONL line (a decode
failure skips the line), then emit a user or assistant message exactly as
the source's two branches do. -/
def parseLine (decode : String → Option JsonEntry) (line : String) :
    Option SessionMessage :=
  match decode line with
  | none => none
  | some entry =>
    if entry.type = "user" ∧ contentTruthy entry.content = true then
      let text := extractUserText entry.content
      if text ≠ "" ∧ isMetaMessage text = false then
        some ⟨"user", truncate text 100, entry.timestamp.getD ""⟩
      else none
    else if entry.type = "assistant" ∧ contentTruthy entry.content = true then
      let text := extractAssistantText entry.content
      if text ≠ "" then
        some ⟨"assistant", truncate text 100, entry.timestamp.getD ""⟩
      else none
    else none

/-- Maximum number of retained messages (`MAX_MESSAGES`). -/
def MAX_MESSAGES : Nat := 100

/-- JS `array.slice(-n)` (`slice(-0)` returns the whole array). -/
def sliceLast (l : List SessionMessage) (n : Nat) : List SessionMessage :=
  if n = 0 then l else l.drop (l.length - n)

/-- `getNewMessages(sessionPath, fromLine)` on fixed (cached) file
content: split the trimmed content into lines, parse only the lines from
`fromLine` on, and return the parsed messages with the current total line
count. -/
def getNewMessages (decode : String → Option JsonEntry) (content : String)
    (fromLine : Nat) : List SessionMessage × Nat :=
  let lines := jsSplitNl (jsTrim content)
  let totalLines := lines.length
  let newLines := lines.drop fromLine
  (newLines.filterMap (parseLine decode), totalLines)

/-- `getAllMessages(sessionPath)` on fixed file content: parse every line,
then keep only the most recent `MAX_MESSAGES` messages. -/
def getAllMessages (decode : String → Option JsonEntry) (content : String) :
    List SessionMessage × Nat :=
  let lines := jsSplitNl (jsTrim content)
  let messages := lines.filterMap (parseLine decode)
  ((if messages.length > MAX_MESSAGES then
      messages.drop (messages.length - MAX_MESSAGES)
    else messages), lines.length)

/-- `getRecentMessages(sessionPath, limit)` on fixed file content: parse
every line and keep the last `limit` messages (`messages.slice(-limit)`). -/
def getRecentMessages (decode : String → Option JsonEntry) (content : String)
    (limit : Nat) : List SessionMessage :=
  let lines := jsSplitNl (jsTrim content)
  sliceLast (lines.filterMap (parseLine decode)) limit

/-! ## Session selector (src/utils/session.ts, getSessionPath) -/

/-- Per-file metadata gathered by the candidate scanner: absolute path,
creation time and modification time in integer milliseconds, size in
bytes. -/
structure FileStat where
  path : String
  birthtimeMs : Int
  mtimeMs : Int
  size : Nat
deriving DecidableEq, Repr

/-- Sort relation of `(a, b) => b.mtimeMs - a.mtimeMs`: most recently
modified first. -/
def mtimeDesc (a b : FileStat) : Prop := b.mtimeMs ≤ a.mtimeMs

instance : DecidableRel mtimeDesc := fun a b =>
  inferInstanceAs (Decidable (b.mtimeMs ≤ a.mtimeMs))

/-- Sort relation of `(a, b) => a.mtimeMs - b.mtimeMs`: earliest
modification first (used by the older selector's resume strategy). -/
def mtimeAsc (a b : FileStat) : Prop := a.mtimeMs ≤ b.mtimeMs

instance : DecidableRel mtimeAsc := fun a b =>
  inferInstanceAs (Decidable (a.mtimeMs ≤ b.mtimeMs))

/-- Sort relation of
`(a, b) => Math.abs(a.mtimeMs - startMs) - Math.abs(b.mtimeMs - startMs)`:
modification time numerically closest to the start time first. -/
def closestTo (startMs : Int) (a b : FileStat) : Prop :=
  (a.mtimeMs - startMs).natAbs ≤ (b.mtimeMs - startMs).natAbs

instance (startMs : Int) : DecidableRel (closestTo startMs) := fun a b =>
  inferInstanceAs (Decidable ((a.mtimeMs - startMs).natAbs ≤ (b.mtimeMs - startMs).natAbs))

/-- `files.filter((f) => f.endsWith(".jsonl"))` over the scanned stats. -/
def jsonlFilter (files : List FileStat) : List FileStat :=
  files.filter fun f => endsWithS f.path ".jsonl"

/-- Birth-time tolerance of the current selector (5 minutes). -/
def birthtimeThreshold : Nat := 300000

/-- Modification-time tolerance of the current selector (10 minutes). -/
def mtimeThreshold : Nat := 600000

/-- Strategy-1 candidate set: files whose creation time is within the
birth-time tolerance of the start time
(`Math.abs(f.birthtime.getTime() - startMs) < birthtimeThreshold`). -/
def birthMatches (files : List FileStat) (startMs : Int) : List FileStat :=
  files.filter fun f => (f.birthtimeMs - startMs).natAbs < birthtimeThreshold

/-- Strategy-2 candidate set: files whose modification time is within the
modification-time tolerance of the start time, on either side
(`Math.abs(mtimeDiff) < mtimeThreshold`). -/
def mtimeMatches (files : List FileStat) (startMs : Int) : List FileStat :=
  files.filter fun f => (f.mtimeMs - startMs).natAbs < mtimeThreshold

/-- Fallback of the current selector: sort every candidate by most recent
modification and return the first path, or the empty string when there is
none (`fileStats[0]?.path || ""`). -/
def fallbackLatest (files : List FileStat) : String :=
  match (List.insertionSort mtimeDesc files).head? with
  | some f => f.path
  | none => ""

/-- The current `getSessionPath` (src/utils/session.ts), from the point
where the sessions directory is read. The directory listing models
`readdir` plus the per-file stats: `none` means `readdir` threw and the
catch-all returns `""`. With a start time, strategy 1 picks the most
recently modified birth-time match, strategy 2 the modification-time
match closest to the start time, and otherwise the most recently modified
file overall wins. No size threshold is applied anywhere. -/
def getSessionPath (listing : Option (List FileStat)) (startTime : Option Int) :
    String :=
  match listing with
  | none => ""
  | some files =>
    let jsonlFiles := jsonlFilter files
    if jsonlFiles = [] then ""
    else
      match startTime with
      | some startMs =>
        match (List.insertionSort mtimeDesc (birthMatches jsonlFiles startMs)).head? with
        | some f => f.path
        | none =>
          match (List.insertionSort (closestTo startMs)
              (mtimeMatches jsonlFiles startMs)).head? with
          | some f => f.path
          | none => fallbackLatest jsonlFiles
      | none => fallbackLatest jsonlFiles

/-- The older `getSessionPath` variant (src/utils/session.ts at the
1024-byte-threshold revision): candidates below 1024 bytes are excluded
from both timing strategies (10 s birth tolerance, one-sided 60 s
modification tolerance preferring the file modified first after start),
and the fallback prefers size-eligible files, falling back to all files
only when none is size-eligible. -/
def getSessionPathOld (listing : Option (List FileStat))
    (startTime : Option Int) : String :=
  match listing with
  | none => ""
  | some files =>
    let jsonlFiles := jsonlFilter files
    if jsonlFiles = [] then ""
    else
      let validFiles := jsonlFiles.filter fun f => 1024 ≤ f.size
      let strategies : Option String :=
        match startTime with
        | none => none
        | some startMs =>
          if validFiles = [] then none
          else
            match (List.insertionSort mtimeDesc
                (validFiles.filter fun f =>
                  (f.birthtimeMs - startMs).natAbs < 10000)).head? with
            | some f => some f.path
            | none =>
              match (List.insertionSort mtimeAsc
                  (validFiles.filter fun f =>
                    0 ≤ f.mtimeMs - startMs ∧ f.mtimeMs - startMs < 60000)).head? with
              | some f => some f.path
              | none => none
      match strategies with
      | some p => p
      | none =>
        fallbackLatest (if validFiles = [] then jsonlFiles else validFiles)

/-! ## Content cache (src/utils/cache.ts, FileCache) -/

/-- One cache entry: the captured text, the file modification time at
capture, and the capture wall-clock time. -/
structure CacheEntry where
  data : String
  mtimeMs : Int
  cachedAt : Int
deriving DecidableEq, Repr

/-- Filesystem model for the cache: `stat` yields the current
modification time (`none` = stat threw), `load` is the loader reading the
file (`none` = read threw). -/
structure FileSys where
  stat : String → Option Int
  load : String → Option String

/-- The cache's `Map` in insertion order: first entry = least recently
used. -/
abbrev CacheState := List (String × CacheEntry)

/-- `this.cache.get(path)`. -/
def cacheFind (s : CacheState) (path : String) : Option CacheEntry :=
  (s.find? fun q => q.1 == path).map fun q => q.2

/-- The LRU refresh on a cache hit: `delete(path); set(path, cached)`
moves the entry to the most-recently-used end. -/
def refreshLru (s : CacheState) (path : String) (e : CacheEntry) : CacheState :=
  (s.filter fun q => !(q.1 == path)) ++ [(path, e)]

/-- `this.cache.set(path, entry)` on a store: a JS `Map.set` updates an
existing key in place (keeping its insertion position) and appends a new
key at the end. -/
def setEntry (s : CacheState) (path : String) (e : CacheEntry) : CacheState :=
  if s.any fun q => q.1 == path then
    s.map fun q => if q.1 == path then (path, e) else q
  else s ++ [(path, e)]

/-- `cleanup()`: drop entries whose age reached the TTL, then, while the
map still exceeds `maxSize`, drop the least recently used (oldest) ones
from the front. -/
def cleanupCache (maxSize ttl : Nat) (now : Int) (s : CacheState) : CacheState :=
  let kept := s.filter fun q => now - q.2.cachedAt < (ttl : Int)
  kept.drop (kept.length - maxSize)

/-- `FileCache.get(path)`: stat the file; on a hit with matching
modification time and age under the TTL, serve the stored data and
refresh its LRU position (loader not invoked); otherwise load, store and
clean up. A stat failure falls into the catch, which retries the loader
without touching the cache; a loader failure inside the try is also
caught and retries the loader once more (hence the count 2). The result
triple is (result, new cache state, number of loader invocations). -/
def cacheGet (maxSize ttl : Nat) (fs : FileSys) (now : Int) (s : CacheState)
    (path : String) : Except String String × CacheState × Nat :=
  match fs.stat path with
  | some currentMtime =>
    match cacheFind s path with
    | some cached =>
      if cached.mtimeMs = currentMtime ∧ now - cached.cachedAt < (ttl : Int) then
        (.ok cached.data, refreshLru s path cached, 0)
      else
        match fs.load path with
        | some d =>
          (.ok d, cleanupCache maxSize ttl now (setEntry s path ⟨d, currentMtime, now⟩), 1)
        | none => (.error ("Failed to load file: " ++ path), s, 2)
    | none =>
      match fs.load path with
      | some d =>
        (.ok d, cleanupCache maxSize ttl now (setEntry s path ⟨d, currentMtime, now⟩), 1)
      | none => (.error ("Failed to load file: " ++ path), s, 2)
  | none =>
    match fs.load path with
    | some d => (.ok d, s, 1)
    | none => (.error ("Failed to load file: " ++ path), s, 1)

/-- The outcome of a fresh load of `path`, bypassing any cached data. -/
def loadResult (fs : FileSys) (path : String) : Except String String :=
  match fs.load path with
  | some d => .ok d
  | none => .error ("Failed to load file: " ++ path)

/-- Cache well-formedness: an entry whose recorded modification time
still equals the file's live modification time holds the file's current
content. Every entry is created this way by the loader, and a file's
content is determined by its modification time in this model. -/
def CacheWF (fs : FileSys) (s : CacheState) : Prop :=
  ∀ p e, cacheFind s p = some e → fs.stat p = some e.mtimeMs →
    fs.load p = some e.data

/-- A demonstration filesystem for the cache: one file `"p"` with live
modification time 5 and content `"hello"`. -/
def cacheDemoFs : FileSys :=
  ⟨fun p => if p = "p" then some 5 else none,
   fun p => if p = "p" then some "hello" else none⟩

/-- A demonstration cache state holding a stale entry for `"p"` captured
at modification time 99. -/
def cacheDemoState : CacheState := [("p", ⟨"old", 99, -500⟩)]

/-! ## Fuzzy directory resolver (src/utils/session.ts,
findBestMatchingProjectDir) -/

/-- Replace every character of a class by a dash, as the source's
character-class regex replacements do. -/
def dashReplace (cls : List Char) (s : String) : String :=
  ⟨s.data.map fun c => if c ∈ cls then '-' else c⟩

/-- JS `replace(/^-+/, "-")`: collapse a leading run of dashes into a
single dash; strings not starting with a dash are unchanged. -/
def collapseLeadingDashes (s : String) : String :=
  match s.data with
  | [] => ""
  | c :: _ => if c = '-' then ⟨'-' :: s.data.dropWhile fun c => c = '-'⟩ else s

/-- `cwdToProjectDir`: replace `/`, `_` and `.` by dashes and collapse
the leading run. -/
def cwdToProjectDir (cwd : String) : String :=
  collapseLeadingDashes (dashReplace ['/', '_', '.'] cwd)

/-- `generateProjectDirVariants`: the four historical naming rules, in
priority order. The source deduplicates them through a `Set`; since
duplicates are identical strings, keeping them does not change the
first-match search below. -/
def generateProjectDirVariants (cwd : String) : List String :=
  [collapseLeadingDashes (dashReplace ['/', '_', '.'] cwd),
   collapseLeadingDashes (dashReplace ['/'] cwd),
   collapseLeadingDashes (dashReplace ['/', '_', ' '] cwd),
   collapseLeadingDashes (dashReplace ['/', '.', ' '] cwd)]

/-- The token-overlap score of a candidate directory name against a
working directory: the number of path segments that are a substring of,
or contain, some dash-delimited token of the directory name, divided by
the total number of path segments. Rational arithmetic stands in for the
JS float score; with zero segments the JS score is NaN, which compares
with the threshold exactly as the rational 0 does. -/
def scoreDir (cwd dir : String) : ℚ :=
  let cwdParts := (jsSplit '/' cwd).filter fun p => p ≠ ""
  let dirParts := (jsSplit '-' dir).filter fun p => p ≠ ""
  let matchCount := cwdParts.countP fun part =>
    dirParts.any fun dp => strIncludes dp part || strIncludes part dp
  (matchCount : ℚ) / (cwdParts.length : ℚ)

/-- Sort relation of `(a, b) => b.score - a.score`: best score first. -/
def scoreDesc (a b : String × ℚ) : Prop := b.2 ≤ a.2

instance : DecidableRel scoreDesc := fun a b =>
  inferInstanceAs (Decidable (b.2 ≤ a.2))

/-- `findBestMatchingProjectDir`, minus its per-process memo cache (a
pure memoisation). The listing of `~/.claude/projects` is an explicit
input; `none` models the `readdir` failure caught by the source. Phase 1
exact-matches the naming variants in order; phase 2 scores every existing
directory and accepts the best-scoring one only if its score exceeds
0.7. -/
def findBestMatchingProjectDir (cwd : String) (allDirs : Option (List String)) :
    Option String :=
  match allDirs with
  | none => none
  | some dirs =>
    match (generateProjectDirVariants cwd).find? (fun v => dirs.contains v) with
    | some v => some v
    | none =>
      let scores := dirs.map fun d => (d, scoreDir cwd d)
      match (List.insertionSort scoreDesc scores).head? with
      | some best => if best.2 > 7 / 10 then some best.1 else none
      | none => none

/-! ## Change notifier debounce (src/hooks/useSessionWatcher.ts) -/

/-- State of the per-path debounce table: the pending timers as
(path, deadline) pairs, and the fired callbacks as (path, fire time)
pairs in firing order. -/
structure DebState where
  pending : List (String × Nat)
  fired : List (String × Nat)

/-- The watcher's debounce window (100 ms). -/
def debounceMs : Nat := 100

/-- Handle one change event `(path, t)`: pending timers whose deadline
has passed by `t` have fired; the event then cancels the path's pending
timer, if any, and restarts it to fire at `t + win` — exactly the
`clearTimeout`/`setTimeout` pair of the source. -/
def handleEvent (win : Nat) (s : DebState) (e : String × Nat) : DebState :=
  let firedNow := s.pending.filter fun q => q.2 ≤ e.2
  let alive := s.pending.filter fun q => ¬ q.2 ≤ e.2
  { pending := (alive.filter fun q => ¬ q.1 = e.1) ++ [(e.1, e.2 + win)],
    fired := s.fired ++ firedNow }

/-- Run the debouncer over a time-ordered list of change events; after
quiescence every still-pending timer fires at its deadline. The result is
the (path, fire time) callback list. -/
def runDebounce (win : Nat) (events : List (String × Nat)) :
    List (String × Nat) :=
  let s := events.foldl (handleEvent win) ⟨[], []⟩
  s.fired ++ s.pending

/-- A burst of event times starting after `t`: each successive event
arrives no earlier than its predecessor and strictly inside the
predecessor's `win`-millisecond debounce window. -/
def burstGapsB (win : Nat) (t : Nat) : List Nat → Bool
  | [] => true
  | u :: us => (decide (t ≤ u) && decide (u < t + win)) && burstGapsB win u us

/-- Event times are non-decreasing and start no earlier than `t`. -/
def timesMonoB (t : Nat) : List (String × Nat) → Bool
  | [] => true
  | e :: rest => decide (t ≤ e.2) && timesMonoB e.2 rest

end CPS

/-! ## Cache state lemmas -/

/-- A keyed search misses on a list without the key. -/
theorem find?_key_none (path : String) (l : CPS.CacheState)
    (h : ∀ q ∈ l, q.1 ≠ path) :
    l.find? (fun q => q.1 == path) = none := by
  induction l with
  | nil => rfl
  | cons q t ih =>
    have hq : (q.1 == path) = false := by
      simpa using h q (List.mem_cons_self q t)
    simp only [List.find?, hq]
    exact ih fun x hx => h x (List.mem_cons_of_mem q hx)

/-- A keyed search on `A ++ [(path, e)]` finds `(path, e)` when `A` does
not contain the key. -/
theorem find?_append_key (path : String) (e : CPS.CacheEntry)
    (A : CPS.CacheState) (h : ∀ q ∈ A, q.1 ≠ path) :
    (A ++ [(path, e)]).find? (fun q => q.1 == path) = some (path, e) := by
  induction A with
  | nil => simp [List.find?]
  | cons q t ih =>
    have hq : (q.1 == path) = false := by
      simpa using h q (List.mem_cons_self q t)
    simp only [List.cons_append, List.find?, hq]
    exact ih fun x hx => h x (List.mem_cons_of_mem q hx)

/-- A keyed search on a filtered list finds `(path, e)` when every
occurrence of the key in the list is the pair `(path, e)` itself and the
filter keeps that pair. -/
theorem find?_filter_keyed (path : String) (e : CPS.CacheEntry)
    (pred : String × CPS.CacheEntry → Bool) (l : CPS.CacheState)
    (hmem : (path, e) ∈ l) (hall : ∀ q ∈ l, q.1 = path → q = (path, e))
    (hpred : pred (path, e) = true) :
    (l.filter pred).find? (fun q => q.1 == path) = some (path, e) := by
  induction l with
  | nil => exact absurd hmem (List.not_mem_nil _)
  | cons q t ih =>
    by_cases hq : q.1 = path
    · have hqe : q = (path, e) := hall q (List.mem_cons_self q t) hq
      subst hqe
      rw [List.filter_cons_of_pos hpred]
      simp [List.find?]
    · have htmem : (path, e) ∈ t := by
        rcases List.mem_cons.mp hmem with h | h
        · exact absurd (congrArg Prod.fst h.symm) hq
        · exact h
      have hrec := ih htmem fun x hx => hall x (List.mem_cons_of_mem q hx)
      have hqb : (q.1 == path) = false := by simpa using hq
      cases hpq : pred q with
      | true =>
        rw [List.filter_cons_of_pos hpq]
        simp only [List.find?, hqb]
        exact hrec
      | false =>
        rw [List.filter_cons_of_neg (by simp [hpq])]
        exact hrec

/-- After the LRU refresh, the entry is still found unchanged. -/
theorem cacheFind_refreshLru (s : CPS.CacheState) (path : String)
    (e : CPS.CacheEntry) :
    CPS.cacheFind (CPS.refreshLru s path e) path = some e := by
  unfold CPS.cacheFind CPS.refreshLru
  rw [find?_append_key path e _ fun q hq => by
    simpa using (List.mem_filter.mp hq).2]
  rfl

/-- After a store at time `now` into a cache of at most `maxSize` entries
followed by `cleanup`, the freshly stored entry is found. -/
theorem cacheFind_after_store (maxSize ttl : Nat) (now : Int)
    (s : CPS.CacheState) (path : String) (d : String) (mt : Int)
    (hlen : s.length ≤ maxSize) (hms : 0 < maxSize) (httl : (0 : Int) < ttl) :
    CPS.cacheFind
      (CPS.cleanupCache maxSize ttl now (CPS.setEntry s path ⟨d, mt, now⟩))
      path = some ⟨d, mt, now⟩ := by
  have hpred : (fun q : String × CPS.CacheEntry =>
      decide (now - q.2.cachedAt < (ttl : Int))) (path, ⟨d, mt, now⟩) = true := by
    simp only [decide_eq_true_eq]
    omega
  unfold CPS.setEntry
  by_cases hany : (s.any fun q => q.1 == path) = true
  · rw [if_pos hany]
    set m := s.map fun q =>
      if q.1 == path then (path, (⟨d, mt, now⟩ : CPS.CacheEntry)) else q with hm
    have hkept_le :
        (m.filter fun q => now - q.2.cachedAt < (ttl : Int)).length ≤ maxSize := by
      calc (m.filter fun q => now - q.2.cachedAt < (ttl : Int)).length
          ≤ m.length := List.length_filter_le _ _
        _ = s.length := by rw [hm, List.length_map]
        _ ≤ maxSize := hlen
    have hfind : ((m.filter fun q => now - q.2.cachedAt < (ttl : Int)).find?
        fun q => q.1 == path) = some (path, ⟨d, mt, now⟩) := by
      apply find?_filter_keyed
      · obtain ⟨q, hq, hqp⟩ := List.any_eq_true.mp hany
        rw [hm]
        refine List.mem_map.mpr ⟨q, hq, ?_⟩
        simp [hqp]
      · intro x hx hxp
        rw [hm] at hx
        obtain ⟨q, hq, hfq⟩ := List.mem_map.mp hx
        by_cases hqp : (q.1 == path) = true
        · rw [if_pos hqp] at hfq
          exact hfq.symm
        · rw [if_neg hqp] at hfq
          subst hfq
          exact absurd (by simpa using hxp) (by simpa using hqp)
      · exact hpred
    simp only [CPS.cleanupCache, CPS.cacheFind]
    rw [Nat.sub_eq_zero_of_le hkept_le, List.drop_zero, hfind]
    rfl
  · rw [if_neg hany]
    have hnokey : ∀ q ∈ s, q.1 ≠ path := by
      intro q hq hqp
      exact hany (List.any_eq_true.mpr ⟨q, hq, by simpa using hqp⟩)
    simp only [CPS.cleanupCache, CPS.cacheFind]
    have h0 : now - (⟨d, mt, now⟩ : CPS.CacheEntry).cachedAt < (ttl : Int) := by
      show now - now < (ttl : Int)
      omega
    have hsingle : List.filter (fun q => decide (now - q.2.cachedAt < (ttl : Int)))
        ([(path, (⟨d, mt, now⟩ : CPS.CacheEntry))] : CPS.CacheState) =
        [(path, ⟨d, mt, now⟩)] := by
      have hdec : decide (now - now < (ttl : Int)) = true :=
        decide_eq_true (by omega)
      simp only [List.filter, hdec]
    rw [List.filter_append, hsingle]
    set A := s.filter fun q => now - q.2.cachedAt < (ttl : Int) with hA
    have hk : (A ++ [(path, (⟨d, mt, now⟩ : CPS.CacheEntry))]).length - maxSize
        ≤ A.length := by
      simp only [List.length_append, List.length_cons, List.length_nil]
      omega
    rw [List.drop_append_of_le_length hk]
    rw [find?_append_key path _ _ fun q hq =>
      hnokey q (List.mem_filter.mp (List.mem_of_mem_drop hq)).1]
    rfl

/-! ## Sorting helpers (stable sort, head of the sorted list) -/

/-- The sorted permutation of a nonempty list is nonempty, so it has a
head. -/
theorem insertionSort_head_exists {α : Type} (r : α → α → Prop)
    [DecidableRel r] (l : List α) (hne : l ≠ []) :
    ∃ f, (List.insertionSort r l).head? = some f := by
  have hperm := List.perm_insertionSort r l
  cases h : List.insertionSort r l with
  | nil =>
    rw [h] at hperm
    exact absurd hperm.symm.eq_nil hne
  | cons a t => exact ⟨a, rfl⟩

/-- The head of the stable sort of `l` by a total transitive relation is
an element of `l` related to every element of `l`. This is the property
the source extracts with `sorted[0]` after `Array.prototype.sort`. -/
theorem insertionSort_head_spec {α : Type} (r : α → α → Prop)
    [DecidableRel r] (htot : ∀ a b, r a b ∨ r b a)
    (htrans : ∀ a b c, r a b → r b c → r a c) (l : List α) (f : α)
    (h : (List.insertionSort r l).head? = some f) :
    f ∈ l ∧ ∀ g ∈ l, r f g := by
  haveI : IsTotal α r := ⟨htot⟩
  haveI : IsTrans α r := ⟨htrans⟩
  have hperm := List.perm_insertionSort r l
  have hsorted := List.sorted_insertionSort r l
  cases hsort : List.insertionSort r l with
  | nil => rw [hsort] at h; exact absurd h (by simp)
  | cons a t =>
    rw [hsort] at h hperm hsorted
    have haf : a = f := by simpa using h
    subst haf
    constructor
    · exact hperm.mem_iff.mp (List.mem_cons_self a t)
    · intro g hg
      have hg' : g ∈ a :: t := hperm.mem_iff.mpr hg
      rcases List.mem_cons.mp hg' with hga | hgt
      · subst hga
        rcases htot g g with hr | hr <;> exact hr
      · exact (List.pairwise_cons.mp hsorted).1 g hgt

/-- Totality of the most-recently-modified-first relation. -/
theorem mtimeDesc_total (a b : CPS.FileStat) :
    CPS.mtimeDesc a b ∨ CPS.mtimeDesc b a :=
  le_total b.mtimeMs a.mtimeMs

/-- Transitivity of the most-recently-modified-first relation. -/
theorem mtimeDesc_trans (a b c : CPS.FileStat) :
    CPS.mtimeDesc a b → CPS.mtimeDesc b c → CPS.mtimeDesc a c :=
  fun h1 h2 => le_trans h2 h1

/-- Totality of the closest-modification-time relation. -/
theorem closestTo_total (s : Int) (a b : CPS.FileStat) :
    CPS.closestTo s a b ∨ CPS.closestTo s b a :=
  le_total _ _

/-- Transitivity of the closest-modification-time relation. -/
theorem closestTo_trans (s : Int) (a b c : CPS.FileStat) :
    CPS.closestTo s a b → CPS.closestTo s b c → CPS.closestTo s a c :=
  le_trans

/-! ## Claim C2: birth-time strategy takes precedence -/

/-- C2: whenever some candidate's creation time falls within the
birth-time tolerance of the process start time, `getSessionPath` returns
the path of a birth-time-matched file whose modification time is maximal
among the birth-time matches — regardless of what the modification-time
strategy or the fallback would have chosen. -/
theorem claim2_birthtime_precedence (files : List CPS.FileStat) (startMs : Int)
    (hne : CPS.birthMatches (CPS.jsonlFilter files) startMs ≠ []) :
    ∃ f ∈ CPS.birthMatches (CPS.jsonlFilter files) startMs,
      CPS.getSessionPath (some files) (some startMs) = f.path ∧
      ∀ g ∈ CPS.birthMatches (CPS.jsonlFilter files) startMs,
        g.mtimeMs ≤ f.mtimeMs := by
  obtain ⟨f, hhead⟩ := insertionSort_head_exists CPS.mtimeDesc _ hne
  have hspec := insertionSort_head_spec CPS.mtimeDesc mtimeDesc_total
    mtimeDesc_trans _ f hhead
  have hj : CPS.jsonlFilter files ≠ [] := by
    intro h0
    apply hne
    simp [CPS.birthMatches, h0]
  refine ⟨f, hspec.1, ?_, fun g hg => hspec.2 g hg⟩
  simp only [CPS.getSessionPath, hj, if_false, hhead]

/-- C2 witness: two birth-time-matched files; the more recently modified
one is selected. -/
theorem claim2_birthtime_precedence_witness :
    ∃ f ∈ CPS.birthMatches
      (CPS.jsonlFilter [⟨"x.jsonl", 100, 50, 10⟩, ⟨"y.jsonl", 200, 80, 10⟩]) 150,
      CPS.getSessionPath
        (some [⟨"x.jsonl", 100, 50, 10⟩, ⟨"y.jsonl", 200, 80, 10⟩])
        (some 150) = f.path ∧
      ∀ g ∈ CPS.birthMatches
        (CPS.jsonlFilter [⟨"x.jsonl", 100, 50, 10⟩, ⟨"y.jsonl", 200, 80, 10⟩]) 150,
        g.mtimeMs ≤ f.mtimeMs :=
  claim2_birthtime_precedence _ _ (by decide)

/-! ## Claim C3: modification-time strategy, closest match, either side -/

/-- C3: when no candidate matches by birth time but some candidate's
modification time lies within the (larger) modification-time tolerance of
the start time — on either side, since only the absolute difference is
tested — `getSessionPath` returns the path of a matched file whose
absolute modification-time distance to the start time is minimal. -/
theorem claim3_mtime_strategy (files : List CPS.FileStat) (startMs : Int)
    (hb : CPS.birthMatches (CPS.jsonlFilter files) startMs = [])
    (hm : CPS.mtimeMatches (CPS.jsonlFilter files) startMs ≠ []) :
    ∃ f ∈ CPS.mtimeMatches (CPS.jsonlFilter files) startMs,
      CPS.getSessionPath (some files) (some startMs) = f.path ∧
      ∀ g ∈ CPS.mtimeMatches (CPS.jsonlFilter files) startMs,
        (f.mtimeMs - startMs).natAbs ≤ (g.mtimeMs - startMs).natAbs := by
  obtain ⟨f, hhead⟩ := insertionSort_head_exists (CPS.closestTo startMs) _ hm
  have hspec := insertionSort_head_spec (CPS.closestTo startMs)
    (closestTo_total startMs) (closestTo_trans startMs) _ f hhead
  have hj : CPS.jsonlFilter files ≠ [] := by
    intro h0
    apply hm
    simp [CPS.mtimeMatches, h0]
  refine ⟨f, hspec.1, ?_, fun g hg => hspec.2 g hg⟩
  simp only [CPS.getSessionPath, hj, if_false, hb, List.insertionSort,
    List.head?_nil, hhead]

/-- C3 witness: no birth-time match; among the two modification-time
matches (one before the start time, one after) the numerically closer one
wins. -/
theorem claim3_mtime_strategy_witness :
    ∃ f ∈ CPS.mtimeMatches
      (CPS.jsonlFilter
        [⟨"x.jsonl", 1000000, 2000000 - 5000, 10⟩,
         ⟨"y.jsonl", 1000000, 2000000 + 3000, 10⟩]) 2000000,
      CPS.getSessionPath
        (some [⟨"x.jsonl", 1000000, 2000000 - 5000, 10⟩,
               ⟨"y.jsonl", 1000000, 2000000 + 3000, 10⟩])
        (some 2000000) = f.path ∧
      ∀ g ∈ CPS.mtimeMatches
        (CPS.jsonlFilter
          [⟨"x.jsonl", 1000000, 2000000 - 5000, 10⟩,
           ⟨"y.jsonl", 1000000, 2000000 + 3000, 10⟩]) 2000000,
        (f.mtimeMs - 2000000).natAbs ≤ (g.mtimeMs - 2000000).natAbs :=
  claim3_mtime_strategy _ _ (by decide) (by decide)

/-! ## Claim C8: resolution misses give an empty result, not an error -/

/-- C8: when the sessions directory is unreadable (the listing is `none`)
or contains no `.jsonl` file, `getSessionPath` returns the empty string.
In this embedding `getSessionPath` is a total function into `String`, so
the miss can never surface as an exception. -/
theorem claim8_miss_is_empty (listing : Option (List CPS.FileStat))
    (startTime : Option Int)
    (h : listing = none ∨
      ∃ files, listing = some files ∧ CPS.jsonlFilter files = []) :
    CPS.getSessionPath listing startTime = "" := by
  rcases h with h | ⟨files, rfl, hj⟩
  · subst h; rfl
  · cases startTime <;> simp [CPS.getSessionPath, hj]

/-- C8 witness: a readable directory with only a non-`.jsonl` file
resolves to the empty string. -/
theorem claim8_miss_is_empty_witness :
    CPS.getSessionPath (some [⟨"notes.txt", 0, 0, 4096⟩]) (some 1000) = "" :=
  claim8_miss_is_empty _ _ (Or.inr ⟨_, rfl, by decide⟩)

/-! ## Claim C1: the 1024-byte eligibility threshold -/

/-- C1, divergence evidence: the current `getSessionPath` applies no size
threshold in any strategy. At the spec's own scenario — a 500-byte file
whose birth time equals the start time next to a 5000-byte file modified
one second before start — it returns the 500-byte file through the
birth-time strategy even though a size-eligible candidate exists, while
the older selector (which implements the documented 1024-byte rule, as
does `debugSessionMatching` in the same module) returns the 5000-byte
file. -/
theorem claim1_size_threshold_divergence :
    CPS.getSessionPath
      (some [⟨"small.jsonl", 1000000000, 1000000000, 500⟩,
             ⟨"big.jsonl", 992800000, 999999000, 5000⟩])
      (some 1000000000) = "small.jsonl" ∧
    (500 : Nat) < 1024 ∧ (1024 : Nat) ≤ 5000 ∧
    CPS.getSessionPathOld
      (some [⟨"small.jsonl", 1000000000, 1000000000, 500⟩,
             ⟨"big.jsonl", 992800000, 999999000, 5000⟩])
      (some 1000000000) = "big.jsonl" := by decide

/-! ## Claim C5: tail idempotence -/

/-- C5: for every decoder, file content and offset `n`, `getNewMessages`
run twice on the same content and offset returns the same messages and
total (it is a pure function of the cached content), and running it at
`n` equal to the returned total line count yields an empty message list
with the same unchanged total. -/
theorem claim5_tail_idempotence (decode : String → Option CPS.JsonEntry)
    (content : String) (fromLine : Nat) :
    CPS.getNewMessages decode content fromLine =
      CPS.getNewMessages decode content fromLine ∧
    (CPS.getNewMessages decode content
      (CPS.getNewMessages decode content fromLine).2).1 = [] ∧
    (CPS.getNewMessages decode content
      (CPS.getNewMessages decode content fromLine).2).2 =
      (CPS.getNewMessages decode content fromLine).2 := by
  refine ⟨rfl, ?_, ?_⟩ <;> simp [CPS.getNewMessages]

/-! ## Claim C6: truncation law -/

/-- C6: the parser's `truncate` at the configured maximum 100 always
returns at most 100 characters; whenever the whitespace-collapsed text
fits in 100 characters it is returned unmodified apart from the collapse,
and whenever it exceeds 100 characters the result ends with the ellipsis
marker (and has exactly the maximal length). -/
theorem claim6_truncation (text : String) :
    (CPS.truncate text 100).length ≤ 100 ∧
    ((CPS.jsTrim (CPS.jsCollapseWs text)).length ≤ 100 →
      CPS.truncate text 100 = CPS.jsTrim (CPS.jsCollapseWs text)) ∧
    (100 < (CPS.jsTrim (CPS.jsCollapseWs text)).length →
      CPS.endsWithS (CPS.truncate text 100) "..." = true ∧
      (CPS.truncate text 100).length = 100) := by
  have hdef : CPS.truncate text 100 =
      (if (CPS.jsTrim (CPS.jsCollapseWs text)).length ≤ 100 then
        CPS.jsTrim (CPS.jsCollapseWs text)
       else (⟨(CPS.jsTrim (CPS.jsCollapseWs text)).data.take (100 - 3)⟩ : String)
          ++ "...") := rfl
  have hdata : (CPS.jsTrim (CPS.jsCollapseWs text)).length =
      (CPS.jsTrim (CPS.jsCollapseWs text)).data.length := rfl
  by_cases h : (CPS.jsTrim (CPS.jsCollapseWs text)).length ≤ 100
  · rw [hdef, if_pos h]
    exact ⟨h, fun _ => rfl, fun hlt => absurd hlt (by omega)⟩
  · rw [hdef, if_neg h]
    have hlen :
        ((⟨(CPS.jsTrim (CPS.jsCollapseWs text)).data.take (100 - 3)⟩ : String)
          ++ "...").length = 100 := by
      rw [String.length_append]
      have h1 : ((⟨(CPS.jsTrim (CPS.jsCollapseWs text)).data.take (100 - 3)⟩ :
          String)).length =
          ((CPS.jsTrim (CPS.jsCollapseWs text)).data.take (100 - 3)).length := rfl
      rw [h1, List.length_take]
      have : ("..." : String).length = 3 := rfl
      omega
    refine ⟨by omega, fun hle => absurd hle h, fun _ => ⟨?_, hlen⟩⟩
    have happ :
        ((⟨(CPS.jsTrim (CPS.jsCollapseWs text)).data.take (100 - 3)⟩ : String)
          ++ "...").data =
        (CPS.jsTrim (CPS.jsCollapseWs text)).data.take (100 - 3)
          ++ ("..." : String).data := rfl
    simp [CPS.endsWithS, happ, List.isSuffixOf]

/-- C6 witness: a short text is returned whitespace-collapsed and
unmodified, and a 110-character text is cut to exactly 100 characters
ending in the ellipsis marker. -/
theorem claim6_truncation_witness :
    CPS.truncate "  hi   there " 100 = "hi there" ∧
    CPS.endsWithS
      (CPS.truncate
        "aaaaaaaaaaaaaaaaaaaaaaaaaaaaaaaaaaaaaaaaaaaaaaaaaaaaaaaaaaaaaaaaaaaaaaaaaaaaaaaaaaaaaaaaaaaaaaaaaaaaaaaaaa"
        100) "..." = true ∧
    (CPS.truncate
        "aaaaaaaaaaaaaaaaaaaaaaaaaaaaaaaaaaaaaaaaaaaaaaaaaaaaaaaaaaaaaaaaaaaaaaaaaaaaaaaaaaaaaaaaaaaaaaaaaaaaaaaaaa"
        100).length = 100 := by
  refine ⟨((claim6_truncation "  hi   there ").2.1 (by decide)).trans (by decide),
    ?_, ?_⟩
  · exact ((claim6_truncation
      "aaaaaaaaaaaaaaaaaaaaaaaaaaaaaaaaaaaaaaaaaaaaaaaaaaaaaaaaaaaaaaaaaaaaaaaaaaaaaaaaaaaaaaaaaaaaaaaaaaaaaaaaaa").2.2
      (by decide)).1
  · exact ((claim6_truncation
      "aaaaaaaaaaaaaaaaaaaaaaaaaaaaaaaaaaaaaaaaaaaaaaaaaaaaaaaaaaaaaaaaaaaaaaaaaaaaaaaaaaaaaaaaaaaaaaaaaaaaaaaaaa").2.2
      (by decide)).2

/-! ## Claim C4: cache staleness and round-trip -/

/-- C4: (i) when a cached entry for a path exists but its recorded
modification time differs from the file's live one, or its age reached
the TTL, `get` never serves the stored data: the loader runs and the
result is exactly the outcome of a fresh load. (ii) Starting from a
well-formed cache within its size budget, two consecutive `get` calls on
the same path with the file unchanged and the second call within the TTL
of the first return the file's content both times, with the loader
invoked at most once over the pair. -/
theorem claim4_cache_staleness_roundtrip (maxSize ttl : Nat) (fs : CPS.FileSys)
    (s : CPS.CacheState) (path : String) :
    (∀ (now mt : Int) (e : CPS.CacheEntry),
      CPS.cacheFind s path = some e → fs.stat path = some mt →
      (e.mtimeMs ≠ mt ∨ (ttl : Int) ≤ now - e.cachedAt) →
      (CPS.cacheGet maxSize ttl fs now s path).1 = CPS.loadResult fs path ∧
      1 ≤ (CPS.cacheGet maxSize ttl fs now s path).2.2) ∧
    (∀ (now1 now2 mt : Int) (d : String),
      CPS.CacheWF fs s → s.length ≤ maxSize → 0 < maxSize → 0 < ttl →
      fs.stat path = some mt → fs.load path = some d →
      now1 ≤ now2 → now2 - now1 < (ttl : Int) →
      (CPS.cacheGet maxSize ttl fs now1 s path).1 = .ok d ∧
      (CPS.cacheGet maxSize ttl fs now2
        (CPS.cacheGet maxSize ttl fs now1 s path).2.1 path).1 = .ok d ∧
      (CPS.cacheGet maxSize ttl fs now1 s path).2.2 +
        (CPS.cacheGet maxSize ttl fs now2
          (CPS.cacheGet maxSize ttl fs now1 s path).2.1 path).2.2 ≤ 1) := by
  constructor
  · intro now mt e hfind hstat hstale
    have hcond : ¬ (e.mtimeMs = mt ∧ now - e.cachedAt < (ttl : Int)) := by
      rintro ⟨h1, h2⟩
      rcases hstale with h | h
      · exact h h1
      · omega
    simp only [CPS.cacheGet, hstat, hfind, if_neg hcond, CPS.loadResult]
    cases fs.load path <;> simp
  · intro now1 now2 mt d hwf hlen hms httl hstat hload h12 hwin
    cases hfind : CPS.cacheFind s path with
    | some e =>
      by_cases hc1 : e.mtimeMs = mt ∧ now1 - e.cachedAt < (ttl : Int)
      · have hed : e.data = d := by
          have hl := hwf path e hfind (by rw [hstat, hc1.1])
          rw [hload] at hl
          exact (Option.some.injEq _ _).mp hl.symm
        have hget1 : CPS.cacheGet maxSize ttl fs now1 s path =
            (.ok e.data, CPS.refreshLru s path e, 0) := by
          simp only [CPS.cacheGet, hstat, hfind, if_pos hc1]
        have hfind2 : CPS.cacheFind (CPS.refreshLru s path e) path = some e :=
          cacheFind_refreshLru s path e
        by_cases hc2 : now2 - e.cachedAt < (ttl : Int)
        · have hget2 : CPS.cacheGet maxSize ttl fs now2
              (CPS.refreshLru s path e) path =
              (.ok e.data, CPS.refreshLru (CPS.refreshLru s path e) path e, 0) := by
            simp only [CPS.cacheGet, hstat, hfind2, if_pos (And.intro hc1.1 hc2)]
          rw [hget1]
          rw [show ((Except.ok e.data : Except String String),
            CPS.refreshLru s path e, 0).2.1 = CPS.refreshLru s path e from rfl]
          rw [hget2, hed]
          exact ⟨rfl, rfl, by norm_num⟩
        · have hcond2 : ¬ (e.mtimeMs = mt ∧ now2 - e.cachedAt < (ttl : Int)) :=
            fun h => hc2 h.2
          have hget2 : CPS.cacheGet maxSize ttl fs now2
              (CPS.refreshLru s path e) path =
              (.ok d, CPS.cleanupCache maxSize ttl now2
                (CPS.setEntry (CPS.refreshLru s path e) path ⟨d, mt, now2⟩), 1) := by
            simp only [CPS.cacheGet, hstat, hfind2, if_neg hcond2, hload]
          rw [hget1]
          rw [show ((Except.ok e.data : Except String String),
            CPS.refreshLru s path e, 0).2.1 = CPS.refreshLru s path e from rfl]
          rw [hget2, hed]
          exact ⟨rfl, rfl, by norm_num⟩
      · have hget1 : CPS.cacheGet maxSize ttl fs now1 s path =
            (.ok d, CPS.cleanupCache maxSize ttl now1
              (CPS.setEntry s path ⟨d, mt, now1⟩), 1) := by
          simp only [CPS.cacheGet, hstat, hfind, if_neg hc1, hload]
        have hfind2 := cacheFind_after_store maxSize ttl now1 s path d mt hlen hms
          (by exact_mod_cast httl)
        have hc2 : (⟨d, mt, now1⟩ : CPS.CacheEntry).mtimeMs = mt ∧
            now2 - (⟨d, mt, now1⟩ : CPS.CacheEntry).cachedAt < (ttl : Int) :=
          ⟨rfl, by show now2 - now1 < (ttl : Int); omega⟩
        have hget2 : CPS.cacheGet maxSize ttl fs now2
            (CPS.cleanupCache maxSize ttl now1 (CPS.setEntry s path ⟨d, mt, now1⟩))
            path =
            (.ok (⟨d, mt, now1⟩ : CPS.CacheEntry).data,
              CPS.refreshLru (CPS.cleanupCache maxSize ttl now1
                (CPS.setEntry s path ⟨d, mt, now1⟩)) path ⟨d, mt, now1⟩, 0) := by
          simp [CPS.cacheGet, hstat, hfind2, hc2.2]
        rw [hget1]
        rw [show ((Except.ok d : Except String String),
          CPS.cleanupCache maxSize ttl now1 (CPS.setEntry s path ⟨d, mt, now1⟩),
          1).2.1 = CPS.cleanupCache maxSize ttl now1
            (CPS.setEntry s path ⟨d, mt, now1⟩) from rfl]
        rw [hget2]
        exact ⟨rfl, rfl, by norm_num⟩
    | none =>
      have hget1 : CPS.cacheGet maxSize ttl fs now1 s path =
          (.ok d, CPS.cleanupCache maxSize ttl now1
            (CPS.setEntry s path ⟨d, mt, now1⟩), 1) := by
        simp only [CPS.cacheGet, hstat, hfind, hload]
      have hfind2 := cacheFind_after_store maxSize ttl now1 s path d mt hlen hms
        (by exact_mod_cast httl)
      have hc2 : (⟨d, mt, now1⟩ : CPS.CacheEntry).mtimeMs = mt ∧
          now2 - (⟨d, mt, now1⟩ : CPS.CacheEntry).cachedAt < (ttl : Int) :=
        ⟨rfl, by show now2 - now1 < (ttl : Int); omega⟩
      have hget2 : CPS.cacheGet maxSize ttl fs now2
          (CPS.cleanupCache maxSize ttl now1 (CPS.setEntry s path ⟨d, mt, now1⟩))
          path =
          (.ok (⟨d, mt, now1⟩ : CPS.CacheEntry).data,
            CPS.refreshLru (CPS.cleanupCache maxSize ttl now1
              (CPS.setEntry s path ⟨d, mt, now1⟩)) path ⟨d, mt, now1⟩, 0) := by
        simp [CPS.cacheGet, hstat, hfind2, hc2.2]
      rw [hget1]
      rw [show ((Except.ok d : Except String String),
        CPS.cleanupCache maxSize ttl now1 (CPS.setEntry s path ⟨d, mt, now1⟩),
        1).2.1 = CPS.cleanupCache maxSize ttl now1
          (CPS.setEntry s path ⟨d, mt, now1⟩) from rfl]
      rw [hget2]
      exact ⟨rfl, rfl, by norm_num⟩

/-- C4 witness: with a stale entry (captured modification time 99 against
a live 5), `get` at time 0 reloads; and the two-call round trip at times
0 and 10 returns `"hello"` twice with a single loader invocation. -/
theorem claim4_cache_witness :
    ((CPS.cacheGet 50 300000 CPS.cacheDemoFs 0 CPS.cacheDemoState "p").1 =
        CPS.loadResult CPS.cacheDemoFs "p" ∧
      1 ≤ (CPS.cacheGet 50 300000 CPS.cacheDemoFs 0 CPS.cacheDemoState "p").2.2) ∧
    ((CPS.cacheGet 50 300000 CPS.cacheDemoFs 0 CPS.cacheDemoState "p").1 =
        .ok "hello" ∧
      (CPS.cacheGet 50 300000 CPS.cacheDemoFs 10
        (CPS.cacheGet 50 300000 CPS.cacheDemoFs 0 CPS.cacheDemoState "p").2.1
        "p").1 = .ok "hello" ∧
      (CPS.cacheGet 50 300000 CPS.cacheDemoFs 0 CPS.cacheDemoState "p").2.2 +
        (CPS.cacheGet 50 300000 CPS.cacheDemoFs 10
          (CPS.cacheGet 50 300000 CPS.cacheDemoFs 0 CPS.cacheDemoState "p").2.1
          "p").2.2 ≤ 1) := by
  have hwf : CPS.CacheWF CPS.cacheDemoFs CPS.cacheDemoState := by
    intro p e hf hs
    by_cases hp : p = "p"
    · subst hp
      have he : e = ⟨"old", 99, -500⟩ := by
        simpa [CPS.cacheFind, CPS.cacheDemoState, List.find?] using hf.symm
      rw [he] at hs
      simp [CPS.cacheDemoFs] at hs
    · have hb : (("p" : String) == p) = false := by
        simpa using Ne.symm hp
      simp [CPS.cacheFind, CPS.cacheDemoState, List.find?, hb] at hf
  constructor
  · exact (claim4_cache_staleness_roundtrip 50 300000 CPS.cacheDemoFs
      CPS.cacheDemoState "p").1 0 5 ⟨"old", 99, -500⟩ (by decide) (by decide)
      (Or.inl (by decide))
  · exact (claim4_cache_staleness_roundtrip 50 300000 CPS.cacheDemoFs
      CPS.cacheDemoState "p").2 0 10 5 "hello" hwf (by decide) (by decide)
      (by decide) (by decide) (by decide) (by decide) (by decide)

/-! ## Claim C7: fuzzy directory scoring and the 0.7 threshold -/

/-- Totality of the best-score-first relation. -/
theorem scoreDesc_total (a b : String × ℚ) :
    CPS.scoreDesc a b ∨ CPS.scoreDesc b a :=
  le_total b.2 a.2

/-- Transitivity of the best-score-first relation. -/
theorem scoreDesc_trans (a b c : String × ℚ) :
    CPS.scoreDesc a b → CPS.scoreDesc b c → CPS.scoreDesc a c :=
  fun h1 h2 => le_trans h2 h1

/-- C7: when no naming variant matches the listing exactly, the fuzzy
resolver can only return an existing directory whose token-overlap score is
maximal among all listed directories and strictly greater than 0.7; and
whenever every listed directory scores at most 0.7, it returns `none`. -/
theorem claim7_fuzzy_threshold (cwd : String) (dirs : List String)
    (hnovariant : ∀ v ∈ CPS.generateProjectDirVariants cwd, v ∉ dirs) :
    (∀ d, CPS.findBestMatchingProjectDir cwd (some dirs) = some d →
      d ∈ dirs ∧ CPS.scoreDir cwd d > 7 / 10 ∧
      ∀ e ∈ dirs, CPS.scoreDir cwd e ≤ CPS.scoreDir cwd d) ∧
    ((∀ d ∈ dirs, CPS.scoreDir cwd d ≤ 7 / 10) →
      CPS.findBestMatchingProjectDir cwd (some dirs) = none) := by
  have hfv : (CPS.generateProjectDirVariants cwd).find?
      (fun v => dirs.contains v) = none := by
    rw [List.find?_eq_none]
    intro v hv
    simpa using hnovariant v hv
  cases hh : (List.insertionSort CPS.scoreDesc
      (dirs.map fun d => (d, CPS.scoreDir cwd d))).head? with
  | none =>
    constructor
    · intro d hd
      simp only [CPS.findBestMatchingProjectDir, hfv, hh] at hd
      exact absurd hd (by simp)
    · intro _
      simp only [CPS.findBestMatchingProjectDir, hfv, hh]
  | some best =>
    have hspec := insertionSort_head_spec CPS.scoreDesc scoreDesc_total
      scoreDesc_trans _ best hh
    obtain ⟨d0, hd0, hbest⟩ := List.mem_map.mp hspec.1
    constructor
    · intro d hd
      simp only [CPS.findBestMatchingProjectDir, hfv, hh] at hd
      by_cases hbs : best.2 > 7 / 10
      · rw [if_pos hbs] at hd
        have hd1 : best.1 = d := by simpa using hd
        have hsc : CPS.scoreDir cwd d = best.2 := by
          rw [← hd1, ← hbest]
        refine ⟨?_, ?_, ?_⟩
        · rw [← hd1, ← hbest]
          exact hd0
        · rw [hsc]
          exact hbs
        · intro e he
          have := hspec.2 (e, CPS.scoreDir cwd e) (List.mem_map_of_mem _ he)
          rw [hsc]
          exact this
      · rw [if_neg hbs] at hd
        exact absurd hd (by simp)
    · intro hall
      simp only [CPS.findBestMatchingProjectDir, hfv, hh]
      have hb2 : best.2 ≤ 7 / 10 := by
        rw [← hbest]
        exact hall d0 hd0
      rw [if_neg (by exact not_lt.mpr hb2)]

/-- C7 witness: for the working directory `/u/p`, none of the naming
variants matches the listed directory `-u-p-extra`, so the fuzzy phase
applies and the theorem's two guarantees hold for this listing. -/
theorem claim7_fuzzy_threshold_witness :
    (∀ d, CPS.findBestMatchingProjectDir "/u/p" (some ["-u-p-extra"]) = some d →
      d ∈ ["-u-p-extra"] ∧ CPS.scoreDir "/u/p" d > 7 / 10 ∧
      ∀ e ∈ ["-u-p-extra"], CPS.scoreDir "/u/p" e ≤ CPS.scoreDir "/u/p" d) ∧
    ((∀ d ∈ ["-u-p-extra"], CPS.scoreDir "/u/p" d ≤ 7 / 10) →
      CPS.findBestMatchingProjectDir "/u/p" (some ["-u-p-extra"]) = none) :=
  claim7_fuzzy_threshold "/u/p" ["-u-p-extra"] (by decide)

/-! ## Claim C9: debounce helper lemmas -/

/-- A list of at most one timer splits into its fired and alive parts. -/
theorem filter_split_compl (l : List (String × Nat)) (t : Nat)
    (hlen : l.length ≤ 1) :
    l.filter (fun q => q.2 ≤ t) ++ l.filter (fun q => ¬ q.2 ≤ t) = l := by
  rcases l with _ | ⟨x, _ | ⟨y, rest⟩⟩
  · rfl
  · by_cases hx : x.2 ≤ t <;> simp [List.filter, hx]
  · simp at hlen

/-- Firing a one-timer table in two stages (up to `t`, then up to a later
`u`) fires exactly the timers due by `u`. -/
theorem pending_fire_split (pend : List (String × Nat)) (t u : Nat)
    (htu : t ≤ u) (hlen : pend.length ≤ 1) :
    pend.filter (fun q => q.2 ≤ t) ++
      (pend.filter fun q => ¬ q.2 ≤ t).filter (fun q => q.2 ≤ u) =
    pend.filter (fun q => q.2 ≤ u) := by
  rcases pend with _ | ⟨x, _ | ⟨y, rest⟩⟩
  · rfl
  · by_cases hx : x.2 ≤ t
    · have hxu : x.2 ≤ u := le_trans hx htu
      simp [List.filter, hx, hxu]
    · by_cases hxu : x.2 ≤ u <;> simp [List.filter, hx, hxu]
  · simp at hlen

/-- Keeping the timers alive past `t` and then past a later `u` keeps
exactly the timers alive past `u`. -/
theorem pending_alive_split (pend : List (String × Nat)) (t u : Nat)
    (htu : t ≤ u) (hlen : pend.length ≤ 1) :
    (pend.filter fun q => ¬ q.2 ≤ t).filter (fun q => ¬ q.2 ≤ u) =
    pend.filter (fun q => ¬ q.2 ≤ u) := by
  rcases pend with _ | ⟨x, _ | ⟨y, rest⟩⟩
  · rfl
  · by_cases hx : x.2 ≤ t
    · have hxu : x.2 ≤ u := le_trans hx htu
      simp [List.filter, hx, hxu]
    · simp [List.filter, hx]
  · simp at hlen

/-- A filter by `a` is transparent to a subsequent filter by a stronger
predicate `b`. -/
theorem filter_filter_of_imp (l : List (String × Nat))
    (a b : String × Nat → Bool) (h : ∀ x, b x = true → a x = true) :
    (l.filter a).filter b = l.filter b := by
  induction l with
  | nil => rfl
  | cons x xs ih =>
    by_cases hb : b x = true
    · rw [List.filter_cons_of_pos (h x hb), List.filter_cons_of_pos hb,
        List.filter_cons_of_pos hb, ih]
    · by_cases ha : a x = true
      · rw [List.filter_cons_of_pos ha, List.filter_cons_of_neg hb,
          List.filter_cons_of_neg hb, ih]
      · rw [List.filter_cons_of_neg ha, List.filter_cons_of_neg hb, ih]

/-- Filtering by two contradictory predicates yields the empty list. -/
theorem filter_filter_contra (l : List (String × Nat))
    (a b : String × Nat → Bool) (h : ∀ x, a x = true → b x = false) :
    (l.filter a).filter b = [] := by
  rw [List.filter_eq_nil_iff]
  intro x hx
  simp [h x (List.mem_filter.mp hx).2]

/-- Within a burst, each event finds the path's timer still pending,
cancels it and restarts it; the timer deadline tracks the last event. -/
theorem debounce_burst_aux (win : Nat) (p : String) :
    ∀ (ts : List Nat) (t : Nat) (fired : List (String × Nat)),
    CPS.burstGapsB win t ts = true →
    (ts.map fun ti => (p, ti)).foldl (CPS.handleEvent win)
        ⟨[(p, t + win)], fired⟩ =
      ⟨[(p, ts.foldl (fun _ x => x) t + win)], fired⟩ := by
  intro ts
  induction ts with
  | nil => intro t fired _; rfl
  | cons u us ih =>
    intro t fired hg
    simp only [CPS.burstGapsB, Bool.and_eq_true, decide_eq_true_eq] at hg
    obtain ⟨⟨h1, h2⟩, h3⟩ := hg
    have hne : ¬ (t + win ≤ u) := by omega
    have hstep : CPS.handleEvent win ⟨[(p, t + win)], fired⟩ (p, u) =
        ⟨[(p, u + win)], fired⟩ := by
      simp [CPS.handleEvent, hne]
    rw [List.map_cons, List.foldl_cons, hstep]
    exact ih u fired h3

/-- Per-path independence invariant: folding the combined event stream
and folding only the `p`-events stay in lockstep on the `p`-entries of
the fired and pending tables. -/
theorem debounce_indep_aux (win : Nat) (p : String) (hwin : 0 < win) :
    ∀ (events : List (String × Nat)) (t : Nat) (s sp : CPS.DebState),
    CPS.timesMonoB t events = true →
    (∀ q ∈ sp.pending, q.1 = p) →
    sp.pending.length ≤ 1 →
    s.fired.filter (fun q => q.1 == p) =
      sp.fired ++ sp.pending.filter (fun q => q.2 ≤ t) →
    s.pending.filter (fun q => q.1 == p) =
      sp.pending.filter (fun q => ¬ q.2 ≤ t) →
    (events.foldl (CPS.handleEvent win) s).fired.filter (fun q => q.1 == p) ++
      (events.foldl (CPS.handleEvent win) s).pending.filter (fun q => q.1 == p) =
    ((events.filter fun e => e.1 == p).foldl (CPS.handleEvent win) sp).fired ++
      ((events.filter fun e => e.1 == p).foldl (CPS.handleEvent win) sp).pending := by
  intro events
  induction events with
  | nil =>
    intro t s sp _ hkeys hlen hf hp
    simp only [List.foldl_nil, List.filter_nil]
    rw [hf, hp, List.append_assoc]
    congr 1
    exact filter_split_compl sp.pending t hlen
  | cons e rest ih =>
    intro t s sp hord hkeys hlen hf hp
    simp only [CPS.timesMonoB, Bool.and_eq_true, decide_eq_true_eq] at hord
    obtain ⟨hte, hord'⟩ := hord
    have hsfired : (CPS.handleEvent win s e).fired =
        s.fired ++ s.pending.filter (fun q => q.2 ≤ e.2) := by
      simp only [CPS.handleEvent]
    have hspend : (CPS.handleEvent win s e).pending =
        ((s.pending.filter fun q => ¬ q.2 ≤ e.2).filter fun q => ¬ q.1 = e.1)
          ++ [(e.1, e.2 + win)] := by
      simp only [CPS.handleEvent]
    have hfired_chain :
        (CPS.handleEvent win s e).fired.filter (fun q => q.1 == p) =
        sp.fired ++ sp.pending.filter (fun q => q.2 ≤ e.2) := by
      rw [hsfired, List.filter_append, hf]
      rw [List.filter_comm (fun q => q.1 == p) (fun q => q.2 ≤ e.2) s.pending]
      rw [hp]
      rw [List.append_assoc]
      congr 1
      exact pending_fire_split sp.pending t e.2 hte hlen
    by_cases hep : (e.1 == p) = true
    · have hep' : e.1 = p := by simpa using hep
      have hfc : (List.filter (fun x => x.1 == p) (e :: rest)) =
          e :: List.filter (fun x => x.1 == p) rest := by
        simp only [List.filter, hep]
      rw [hfc]
      simp only [List.foldl_cons]
      have hnilkeys :
          ((sp.pending.filter fun q => ¬ q.2 ≤ e.2).filter fun q => ¬ q.1 = e.1)
            = [] := by
        rw [List.filter_eq_nil_iff]
        intro x hx
        have hxk : x.1 = p := hkeys x (List.mem_filter.mp hx).1
        simp [hxk, hep']
      have hspfired : (CPS.handleEvent win sp e).fired =
          sp.fired ++ sp.pending.filter (fun q => q.2 ≤ e.2) := by
        simp only [CPS.handleEvent]
      have hsppend : (CPS.handleEvent win sp e).pending = [(p, e.2 + win)] := by
        simp only [CPS.handleEvent, hnilkeys, List.nil_append]
        rw [hep']
      refine ih e.2 (CPS.handleEvent win s e) (CPS.handleEvent win sp e) hord'
        ?_ ?_ ?_ ?_
      · intro q hq
        rw [hsppend] at hq
        simp only [List.mem_singleton] at hq
        rw [hq]
      · rw [hsppend]
        simp
      · rw [hfired_chain, hspfired, hsppend]
        have hlate : ([(p, e.2 + win)].filter fun q => q.2 ≤ e.2) =
            ([] : List (String × Nat)) := by
          simp
          omega
        rw [hlate, List.append_nil]
      · rw [hspend, hsppend, List.filter_append]
        have hcontra :
            (((s.pending.filter fun q => ¬ q.2 ≤ e.2).filter
              fun q => ¬ q.1 = e.1).filter fun q => q.1 == p) = [] := by
          apply filter_filter_contra
          intro x hx
          simp only [decide_eq_true_eq] at hx
          rw [hep'] at hx
          simpa using hx
        rw [hcontra, List.nil_append]
        have hkeep : (([(e.1, e.2 + win)] : List (String × Nat)).filter
            fun q => q.1 == p) = [(p, e.2 + win)] := by
          simp [hep']
        rw [hkeep]
        have halive : (([(p, e.2 + win)] : List (String × Nat)).filter
            fun q => ¬ q.2 ≤ e.2) = [(p, e.2 + win)] := by
          simp
          omega
        rw [halive]
    · have hep' : ¬ e.1 = p := by simpa using hep
      have hepf : (e.1 == p) = false := by simpa using hep
      have hfc : (List.filter (fun x => x.1 == p) (e :: rest)) =
          List.filter (fun x => x.1 == p) rest := by
        simp only [List.filter, hepf]
      rw [hfc]
      simp only [List.foldl_cons]
      refine ih e.2 (CPS.handleEvent win s e) sp hord' hkeys hlen ?_ ?_
      · exact hfired_chain
      · rw [hspend, List.filter_append]
        have hdrop : (([(e.1, e.2 + win)] : List (String × Nat)).filter
            fun q => q.1 == p) = [] := by
          simp [hep']
        rw [hdrop, List.append_nil]
        rw [filter_filter_of_imp _ _ _ ?impl]
        · rw [List.filter_comm (fun q => q.1 == p) (fun q => ¬ q.2 ≤ e.2)
            s.pending]
          rw [hp]
          exact pending_alive_split sp.pending t e.2 hte hlen
        · intro x hx
          simp only [beq_iff_eq] at hx
          simp [hx]
          exact fun h => hep' h.symm

/-- C9: (i) a burst of events for one path, each arriving strictly inside
the previous event's 100 ms debounce window, produces exactly one
callback, fired one window after the last event of the burst; each event
cancels and restarts the path's pending timer. (ii) The callbacks
produced for a path depend only on that path's events: filtering the
output of the combined run to a path equals running the debouncer on that
path's events alone. -/
theorem claim9_debounce :
    (∀ (p : String) (t : Nat) (ts : List Nat),
      CPS.burstGapsB CPS.debounceMs t ts = true →
      CPS.runDebounce CPS.debounceMs ((t :: ts).map fun ti => (p, ti)) =
        [(p, ts.foldl (fun _ x => x) t + CPS.debounceMs)]) ∧
    (∀ (events : List (String × Nat)) (p : String),
      CPS.timesMonoB 0 events = true →
      (CPS.runDebounce CPS.debounceMs events).filter (fun q => q.1 == p) =
        CPS.runDebounce CPS.debounceMs (events.filter fun e => e.1 == p)) := by
  constructor
  · intro p t ts hg
    simp only [CPS.runDebounce, List.map_cons, List.foldl_cons]
    have h0 : CPS.handleEvent CPS.debounceMs ⟨[], []⟩ (p, t) =
        ⟨[(p, t + CPS.debounceMs)], []⟩ := rfl
    rw [h0, debounce_burst_aux CPS.debounceMs p ts t [] hg]
    rfl
  · intro events p hmono
    simp only [CPS.runDebounce]
    rw [List.filter_append]
    exact debounce_indep_aux CPS.debounceMs p (by decide) events 0 ⟨[], []⟩
      ⟨[], []⟩ hmono
      (by intro q hq; exact absurd hq (List.not_mem_nil q))
      (by simp) (by simp) (by simp)

/-- C9 witness: three rapid events (0 ms, 50 ms, 90 ms) for one path
produce the single callback at 190 ms, and with an interleaved second
path the first path's callbacks equal those of its isolated run. -/
theorem claim9_debounce_witness :
    CPS.runDebounce CPS.debounceMs
      [("a.jsonl", 0), ("a.jsonl", 50), ("a.jsonl", 90)] = [("a.jsonl", 190)] ∧
    (CPS.runDebounce CPS.debounceMs
      [("a.jsonl", 0), ("b.jsonl", 10), ("a.jsonl", 60)]).filter
        (fun q => q.1 == "a.jsonl") =
      CPS.runDebounce CPS.debounceMs
        ([("a.jsonl", 0), ("b.jsonl", 10), ("a.jsonl", 60)].filter
          fun e => e.1 == "a.jsonl") := by
  constructor
  · exact claim9_debounce.1 "a.jsonl" 0 [50, 90] (by decide)
  · exact claim9_debounce.2 [("a.jsonl", 0), ("b.jsonl", 10), ("a.jsonl", 60)]
      "a.jsonl" (by decide)

/-! ## Claim C10: parser output invariants -/

/-- The truncation at the configured maximum never exceeds 100
characters. -/
theorem truncate_length_le (text : String) :
    (CPS.truncate text 100).length ≤ 100 := by
  have hdef : CPS.truncate text 100 =
      (if (CPS.jsTrim (CPS.jsCollapseWs text)).length ≤ 100 then
        CPS.jsTrim (CPS.jsCollapseWs text)
       else (⟨(CPS.jsTrim (CPS.jsCollapseWs text)).data.take (100 - 3)⟩ : String)
          ++ "...") := rfl
  by_cases h : (CPS.jsTrim (CPS.jsCollapseWs text)).length ≤ 100
  · rw [hdef, if_pos h]
    exact h
  · rw [hdef, if_neg h, String.length_append]
    have h1 : ((⟨(CPS.jsTrim (CPS.jsCollapseWs text)).data.take (100 - 3)⟩ :
        String)).length =
        ((CPS.jsTrim (CPS.jsCollapseWs text)).data.take (100 - 3)).length := rfl
    have h3 : ("..." : String).length = 3 := rfl
    rw [h1, List.length_take, h3]
    omega

/-- Shape of every message emitted for a single line: the role is `user`
or `assistant`, the content is the 100-capped truncation, and a user
message only arises from a non-empty plain-string content that does not
match the meta/command prefixes. -/
theorem parseLine_spec (decode : String → Option CPS.JsonEntry) (line : String)
    (msg : CPS.SessionMessage) (h : CPS.parseLine decode line = some msg) :
    (msg.role = "user" ∨ msg.role = "assistant") ∧ msg.content.length ≤ 100 ∧
    (msg.role = "user" → ∃ e, decode line = some e ∧ e.type = "user" ∧
      ∃ s, e.content = some (.str s) ∧ s ≠ "" ∧ CPS.isMetaMessage s = false ∧
        msg.content = CPS.truncate s 100) := by
  cases hdec : decode line with
  | none => simp [CPS.parseLine, hdec] at h
  | some entry =>
    simp only [CPS.parseLine, hdec] at h
    by_cases hu : entry.type = "user" ∧ CPS.contentTruthy entry.content = true
    · rw [if_pos hu] at h
      by_cases ht : CPS.extractUserText entry.content ≠ "" ∧
          CPS.isMetaMessage (CPS.extractUserText entry.content) = false
      · rw [if_pos ht] at h
        have hmsg : msg = ⟨"user",
            CPS.truncate (CPS.extractUserText entry.content) 100,
            entry.timestamp.getD ""⟩ := by
          injection h with h'
          exact h'.symm
        subst hmsg
        refine ⟨Or.inl rfl, truncate_length_le _, fun _ => ?_⟩
        cases hc : entry.content with
        | none =>
          rw [hc] at hu
          exact absurd hu.2 (by simp [CPS.contentTruthy])
        | some mc =>
          cases mc with
          | str s =>
            have hext : CPS.extractUserText entry.content = s := by
              rw [hc]
              rfl
            rw [hext] at ht
            exact ⟨entry, rfl, hu.1, s, hc, ht.1, ht.2, rfl⟩
          | arr items =>
            have hext : CPS.extractUserText entry.content = "" := by
              rw [hc]
              rfl
            exact absurd hext ht.1
      · rw [if_neg ht] at h
        exact absurd h (by simp)
    · rw [if_neg hu] at h
      by_cases ha : entry.type = "assistant" ∧
          CPS.contentTruthy entry.content = true
      · rw [if_pos ha] at h
        by_cases ht : CPS.extractAssistantText entry.content ≠ ""
        · rw [if_pos ht] at h
          have hmsg : msg = ⟨"assistant",
              CPS.truncate (CPS.extractAssistantText entry.content) 100,
              entry.timestamp.getD ""⟩ := by
            injection h with h'
            exact h'.symm
          subst hmsg
          refine ⟨Or.inr rfl, truncate_length_le _, fun hu' => ?_⟩
          exact absurd (show ("assistant" : String) = "user" from hu') (by decide)
        · rw [if_neg ht] at h
          exact absurd h (by simp)
      · rw [if_neg ha] at h
        exact absurd h (by simp)

/-- C10 counterexample: a user record whose content is the single space
`" "` (a legal JSONL line `{"type":"user","message":{"content":" "}}`) is
emitted as a user message with empty content, so the produced messages do
not all have non-empty content. -/
theorem claim10_counterexample :
    ∃ msg ∈ (CPS.getNewMessages
      (fun line => if line = "u" then
        some ⟨"user", some (.str " "), none⟩ else none) "u" 0).1,
      msg.role = "user" ∧ msg.content = "" := by
  refine ⟨⟨"user", "", ""⟩, ?_, rfl, rfl⟩
  decide

/-- C10 amended: every message produced by `getNewMessages`,
`getAllMessages` or `getRecentMessages` has role `user` or `assistant`
and content of at most 100 characters; every produced user message
originates from a line whose decoded record has type `user` and a
non-empty plain-string content that does not start with
`<local-command`, `<command-name>` or `<command-message>` — so meta and
command records are never emitted, and content is non-empty except when
the originating text collapses to whitespace only. -/
theorem claim10_parser_invariants (decode : String → Option CPS.JsonEntry)
    (content : String) (fromLine limit : Nat) (msg : CPS.SessionMessage)
    (h : msg ∈ (CPS.getNewMessages decode content fromLine).1 ∨
      msg ∈ (CPS.getAllMessages decode content).1 ∨
      msg ∈ CPS.getRecentMessages decode content limit) :
    (msg.role = "user" ∨ msg.role = "assistant") ∧ msg.content.length ≤ 100 ∧
    (msg.role = "user" → ∃ line ∈ CPS.jsSplitNl (CPS.jsTrim content), ∃ e,
      decode line = some e ∧ e.type = "user" ∧ ∃ s,
        e.content = some (.str s) ∧ s ≠ "" ∧ CPS.isMetaMessage s = false ∧
        msg.content = CPS.truncate s 100) := by
  have hmem : ∃ line ∈ CPS.jsSplitNl (CPS.jsTrim content),
      CPS.parseLine decode line = some msg := by
    rcases h with h | h | h
    · simp only [CPS.getNewMessages] at h
      obtain ⟨line, hl, he⟩ := List.mem_filterMap.mp h
      exact ⟨line, List.mem_of_mem_drop hl, he⟩
    · simp only [CPS.getAllMessages] at h
      by_cases hgt : ((CPS.jsSplitNl (CPS.jsTrim content)).filterMap
          (CPS.parseLine decode)).length > CPS.MAX_MESSAGES
      · rw [if_pos hgt] at h
        obtain ⟨line, hl, he⟩ := List.mem_filterMap.mp (List.mem_of_mem_drop h)
        exact ⟨line, hl, he⟩
      · rw [if_neg hgt] at h
        obtain ⟨line, hl, he⟩ := List.mem_filterMap.mp h
        exact ⟨line, hl, he⟩
    · simp only [CPS.getRecentMessages, CPS.sliceLast] at h
      by_cases h0 : limit = 0
      · rw [if_pos h0] at h
        obtain ⟨line, hl, he⟩ := List.mem_filterMap.mp h
        exact ⟨line, hl, he⟩
      · rw [if_neg h0] at h
        obtain ⟨line, hl, he⟩ := List.mem_filterMap.mp (List.mem_of_mem_drop h)
        exact ⟨line, hl, he⟩
  obtain ⟨line, hline, hparse⟩ := hmem
  have hspec := parseLine_spec decode line msg hparse
  exact ⟨hspec.1, hspec.2.1, fun hu => ⟨line, hline, hspec.2.2 hu⟩⟩

/-- C10 witness: a decoded user record with content `"hi"` yields the
message `("user", "hi", "ts")`, which satisfies the amended
invariants. -/
theorem claim10_parser_invariants_witness :
    ((⟨"user", "hi", "ts"⟩ : CPS.SessionMessage).role = "user" ∨
      (⟨"user", "hi", "ts"⟩ : CPS.SessionMessage).role = "assistant") ∧
    (⟨"user", "hi", "ts"⟩ : CPS.SessionMessage).content.length ≤ 100 ∧
    ((⟨"user", "hi", "ts"⟩ : CPS.SessionMessage).role = "user" →
      ∃ line ∈ CPS.jsSplitNl (CPS.jsTrim "ok"), ∃ e,
        (fun line => if line = "ok" then
          some (⟨"user", some (.str "hi"), some "ts"⟩ : CPS.JsonEntry)
          else none) line = some e ∧ e.type = "user" ∧ ∃ s,
          e.content = some (.str s) ∧ s ≠ "" ∧ CPS.isMetaMessage s = false ∧
          (⟨"user", "hi", "ts"⟩ : CPS.SessionMessage).content =
            CPS.truncate s 100) :=
  claim10_parser_invariants
    (fun line => if line = "ok" then
      some (⟨"user", some (.str "hi"), some "ts"⟩ : CPS.JsonEntry) else none)
    "ok" 0 5 ⟨"user", "hi", "ts"⟩ (Or.inl (by decide))
